import Mathlib

/-!
# usanidi: the `nidi` command-line bootstrap (`src/app/app.go`)

A shallow embedding of `app.New` and `app.getCommands`, together with the parts of the
command dispatcher they drive, and the properties of the dispatcher stated in the
specification.

The Go function `New` assembles a `cli.App`, sorts its flags and commands by name, installs
a default action that shows the application help and exits with status 0, runs the
application on `os.Args`, and calls `log.Fatal` when the run returns an error.

Process effects are explicit: a computation yields the text it wrote to the standard and the
diagnostic stream and either returns a value or terminates the process with an exit status.
The dispatcher additionally records which handler or default action it invoked.
-/

namespace Usanidi

/-! ## Effects -/

/-- One write to a process stream. -/
inductive Output where
  | stdout (s : String)
  | stderr (s : String)
deriving DecidableEq, Repr

/-- How a computation ends: it returns to its caller, or it terminates the process
(`os.Exit`) with an exit status. -/
inductive Status (α : Type) where
  | returned (a : α)
  | exited (code : Nat)

/-- The effect of a piece of user code: what it wrote, and how it ended. -/
structure Effect (α : Type) where
  out : List Output
  status : Status α

/-- Sequencing of Go statements: the continuation runs only if the first statement returns. -/
def Effect.andThen {α β : Type} (e : Effect α) (k : α → Effect β) : Effect β :=
  match e.status with
  | .exited code => ⟨e.out, .exited code⟩
  | .returned a => ⟨e.out ++ (k a).out, (k a).status⟩

/-- What a command handler yields: its output and its error result (`none` is Go's `nil`). -/
structure HandlerResult where
  out : List Output
  err : Option String

/-- An invocation made by the dispatcher. -/
inductive Call where
  | handler (name : String) (args : List String)
  | defaultAction
deriving DecidableEq, Repr

/-- A run of the dispatcher: the invocations it made, the output, and how it ended. -/
structure Proc (α : Type) where
  calls : List Call
  out : List Output
  status : Status α

/-- The exit status of the process: the status passed to `os.Exit`, and 0 when the
computation returns normally. -/
def Proc.exitCode {α : Type} (p : Proc α) : Nat :=
  match p.status with
  | .exited code => code
  | .returned _ => 0

/-! ## Data model -/

/-- Modelled from the spec: the flag types belong to the external command-line library.
A flag is boolean, string or numeric; `New` registers a boolean one only. -/
inductive FlagKind where
  | bool
  | string
  | numeric
deriving DecidableEq, Repr

/-- A global flag (`cli.Flag`): its kind, and the fields `Name` and `Usage` that `New`
sets. -/
structure Flag where
  Kind : FlagKind
  Name : String
  Usage : String
deriving DecidableEq, Repr

/-- The flag literal `&cli.BoolFlag{Name: ..., Usage: ...}`. -/
def BoolFlag (Name Usage : String) : Flag := ⟨.bool, Name, Usage⟩

/-- Modelled from the spec: the type `cli.Command` belongs to the external command-line
library. A command has a name, a usage text and a handler, the handler being run on the
arguments that remain after the command name. -/
structure Command where
  Name : String
  Usage : String
  Action : List String → HandlerResult

/-- The fields of `cli.App` that `New` sets besides the default action: `Name`, `Usage`,
`Flags` and `Commands`. -/
structure AppInfo where
  Name : String
  Usage : String
  Flags : List Flag
  Commands : List Command

/-- The `cli.Context` handed to the default action: the application and the parsed
positional arguments. -/
structure Context where
  App : AppInfo
  Args : List String

/-- The application descriptor `cli.App`: its content and the default action `Action`. -/
structure App extends AppInfo where
  Action : Context → Effect (Option String)

/-- The argument parser of the command-line library, taken as a parameter: given the global
flags and the arguments after the program name it yields the positional arguments, or an
error. -/
abbrev Parser := List Flag → List String → Except String (List String)

/-! ## Ordering (`sort.Sort` over `cli.FlagsByName` and `cli.CommandsByName`) -/

/-- Modelled from the spec: `sort.Sort` belongs to the Go standard library. It sorts
ascending for the given `less`, deterministically and stably under ties; `x` is placed
before the first entry that is not less than it. -/
def sortSort {α : Type} (less : α → α → Bool) (l : List α) : List α :=
  l.insertionSort (fun a b => less b a = false)

/-- Go's `<` on strings: lexicographic comparison, here on the sequences of code points
(the byte-wise comparison of the UTF-8 encodings gives the same order). -/
def charsLess : List Char → List Char → Bool
  | _, [] => false
  | [], _ :: _ => true
  | a :: as, b :: bs =>
    if a < b then true else if b < a then false else charsLess as bs

/-- Go's `s < t` for strings `s`, `t`. -/
def stringLess (s t : String) : Bool := charsLess s.data t.data

/-- Modelled from the spec: `cli.FlagsByName` belongs to the external command-line library.
It orders flags by name, lexicographically. -/
def FlagsByName (a b : Flag) : Bool := stringLess a.Name b.Name

/-- Modelled from the spec: `cli.CommandsByName` belongs to the external command-line
library. It orders commands by name, lexicographically. -/
def CommandsByName (a b : Command) : Bool := stringLess a.Name b.Name

/-! ## Help -/

/-- Concatenation of rendered lines. -/
def concat (ls : List String) : String := ls.foldr (fun l acc => l ++ acc) ""

/-- The help line of a global flag. -/
def flagLine (f : Flag) : String := "   " ++ "--" ++ f.Name ++ "  " ++ f.Usage ++ "\n"

/-- The help line of a command. -/
def commandLine (c : Command) : String := "   " ++ c.Name ++ "  " ++ c.Usage ++ "\n"

/-- Modelled from the spec: the help template belongs to the external command-line library.
The full application help shows the name, the usage summary, all commands with their usage
and the global flags, each list in the order held by the descriptor. -/
def helpText (a : AppInfo) : String :=
  "NAME:\n   " ++ a.Name ++ " - " ++ a.Usage ++ "\n\nCOMMANDS:\n"
    ++ concat (a.Commands.map commandLine)
    ++ "\nGLOBAL OPTIONS:\n" ++ concat (a.Flags.map flagLine)

/-- Modelled from the spec: `cli.ShowAppHelpAndExit` belongs to the external command-line
library. It prints the application help to standard output and terminates the process with
the given exit code. -/
def ShowAppHelpAndExit (c : Context) (exitCode : Nat) : Effect Unit :=
  ⟨[.stdout (helpText c.App)], .exited exitCode⟩

/-- The Go standard library call `log.Fatal(err)`: writes the error to the diagnostic stream
(the logger's time prefix is left out) and terminates the process with status 1. -/
def logFatal {α : Type} (err : String) : Effect α :=
  ⟨[.stderr err], .exited 1⟩

/-! ## Dispatcher -/

/-- Modelled from the spec: the lookup of a registered command by its name belongs to the
external command-line library. The first command with the given name is found. -/
def App.Command (a : App) (name : String) : Option Command :=
  a.Commands.find? (fun c => c.Name == name)

/-- Modelled from the spec: the invocation of the default action belongs to the external
command-line library. The action runs on the descriptor and the parsed arguments. -/
def App.runDefault (a : App) (args : List String) : Proc (Option String) :=
  let e := a.Action ⟨a.toAppInfo, args⟩
  ⟨[.defaultAction], e.out, e.status⟩

/-- Modelled from the spec: the dispatcher `cli.App.Run` belongs to the external
command-line library. It parses the arguments after the program name against the global
flags; a parse error is returned as the error of the run; if the first positional argument
names a registered command, that command's handler is invoked with the remaining arguments
and its result is propagated; otherwise the default action is invoked. The first entry of
`arguments` is the program name, as in `os.Args`. -/
def App.Run (parse : Parser) (a : App) (arguments : List String) : Proc (Option String) :=
  match parse a.Flags (arguments.drop 1) with
  | .error e => ⟨[], [], .returned (some e)⟩
  | .ok [] => a.runDefault []
  | .ok (name :: rest) =>
    match a.Command name with
    | some c => ⟨[.handler c.Name rest], (c.Action rest).out, .returned (c.Action rest).err⟩
    | none => a.runDefault (name :: rest)

/-! ## `app.go` -/

/-- The function `getCommands`: the empty command table. -/
def getCommands : List Command := []

/-- Lines 11-21 of `New`: the descriptor with its name, usage, flags and commands. -/
def build : AppInfo :=
  { Name := "nidi"
    Usage := "A CLI to config your laptop as code"
    Flags := [BoolFlag "debug" "enable debug"]
    Commands := getCommands }

/-- Lines 23-24 of `New`: the two `sort.Sort` calls. -/
def normalize (d : AppInfo) : AppInfo :=
  { d with
    Flags := sortSort FlagsByName d.Flags
    Commands := sortSort CommandsByName d.Commands }

/-- Lines 26-29 of `New`: the default action, `cli.ShowAppHelpAndExit(c, 0); return nil`. -/
def defaultAction (c : Context) : Effect (Option String) :=
  (ShowAppHelpAndExit c 0).andThen fun _ => ⟨[], .returned none⟩

/-- Lines 31-34 of `New`: run the application on the process arguments, `log.Fatal` on an
error, and return the descriptor otherwise. -/
def runOrFatal (parse : Parser) (app : App) (osArgs : List String) : Proc App :=
  let r := app.Run parse osArgs
  match r.status with
  | .exited code => ⟨r.calls, r.out, .exited code⟩
  | .returned (some err) =>
    ⟨r.calls, r.out ++ (logFatal err : Effect App).out, (logFatal err : Effect App).status⟩
  | .returned none => ⟨r.calls, r.out, .returned app⟩

/-- The descriptor `New` holds when it runs the application. -/
def descriptor : App :=
  { toAppInfo := normalize build
    Action := defaultAction }

/-- The function `New`, on the process arguments `os.Args`. -/
def New (parse : Parser) (osArgs : List String) : Proc App :=
  runOrFatal parse descriptor osArgs

/-! ## A reference parser -/

/-- The spellings that `strconv.ParseBool` accepts. -/
def isBoolValue (v : String) : Bool :=
  ["1", "t", "T", "TRUE", "true", "True", "0", "f", "F", "FALSE", "false", "False"].contains v

/-- The value of a digit as `strconv.ParseUint` reads it: `0`-`9`, then the letters, in
either case, from 10 on. -/
def digitValue (c : Char) : Option Nat :=
  if 48 ≤ c.toNat ∧ c.toNat ≤ 57 then some (c.toNat - 48)
  else if 97 ≤ c.toNat ∧ c.toNat ≤ 122 then some (c.toNat - 87)
  else if 65 ≤ c.toNat ∧ c.toNat ≤ 90 then some (c.toNat - 55)
  else none

/-- The digit loop of `strconv.ParseUint` at 64 bits: a character that is no digit of the
base is a syntax error, a value beyond 64 bits a range error. The errors carry the texts the
`flag` package gives them. -/
def parseUint (base : Nat) : Nat → List Char → Except String Nat
  | n, [] => .ok n
  | n, c :: cs =>
    match digitValue c with
    | none => .error "parse error"
    | some d =>
      if base ≤ d then .error "parse error"
      else if 2 ^ 64 ≤ n * base + d then .error "value out of range"
      else parseUint base (n * base + d) cs

/-- The digits of an unsigned number with the base taken from its prefix, as
`strconv.ParseUint(s, 0, 64)` reads them: `0b`, `0o` and `0x` before at least one more
character select base 2, 8 and 16, another leading `0` selects base 8, and base 10 is used
otherwise. -/
def parseUintBase0 : List Char → Except String Nat
  | [] => .error "parse error"
  | '0' :: b :: d :: rest =>
    if b = 'b' ∨ b = 'B' then parseUint 2 0 (d :: rest)
    else if b = 'o' ∨ b = 'O' then parseUint 8 0 (d :: rest)
    else if b = 'x' ∨ b = 'X' then parseUint 16 0 (d :: rest)
    else parseUint 8 0 (b :: d :: rest)
  | '0' :: rest => parseUint 8 0 rest
  | c :: rest => parseUint 10 0 (c :: rest)

/-- What `strconv.ParseInt(s, 0, 64)` objects to in `s`, if anything: an optional sign, then
an unsigned number that fits the signed 64-bit range. -/
def intError (s : List Char) : Option String :=
  match s with
  | [] => some "parse error"
  | '-' :: digits =>
    match parseUintBase0 digits with
    | .error e => some e
    | .ok n => if 2 ^ 63 < n then some "value out of range" else none
  | '+' :: digits =>
    match parseUintBase0 digits with
    | .error e => some e
    | .ok n => if 2 ^ 63 ≤ n then some "value out of range" else none
  | c :: cs =>
    match parseUintBase0 (c :: cs) with
    | .error e => some e
    | .ok n => if 2 ^ 63 ≤ n then some "value out of range" else none

/-- What setting the flag `f` to `value` objects to, if anything, with the error text of the
`flag` package: a boolean flag wants a boolean spelling, a numeric flag an integer, a string
flag takes every value. -/
def setError (f : Flag) (value : String) : Option String :=
  match f.Kind with
  | .bool =>
    if isBoolValue value then none
    else some ("invalid boolean value \"" ++ value ++ "\" for -" ++ f.Name ++ ": parse error")
  | .string => none
  | .numeric =>
    match intError value.data with
    | none => none
    | some e => some ("invalid value \"" ++ value ++ "\" for flag -" ++ f.Name ++ ": " ++ e)

/-- Split the text after the dashes at its first `=`: the name of the flag and, when there is
an `=`, the value after it. The first character is never `=` and belongs to the name. -/
def splitAtEq : List Char → List Char × Option (List Char)
  | [] => ([], none)
  | c :: cs => if c = '=' then ([], some cs) else (c :: (splitAtEq cs).1, (splitAtEq cs).2)

/-- A reference argument parser that follows `FlagSet.Parse` of Go's `flag` package on the
flags of the descriptor, used to evaluate the dispatcher on concrete arguments. A token of at
least two characters that starts with `-` is a flag, written `-name`, `--name`, `-name=value`
or `--name=value`; the token `--` ends the flags; every other token is positional, and so is
everything after it. An undefined flag is an error. A boolean flag takes a value only after
`=`; a flag of another kind takes the next token as its value when no `=` is given.
Left out: the digit separator `_` in integers, the escapes that `%q` applies to a quoted
value, and the help and version flags that the command-line library registers by itself;
integers are 64 bits wide. The first component of the state is the flag that still awaits
its value. -/
def flagParseFrom (flags : List Flag) : Option Flag → List String → Except String (List String)
  | none, [] => .ok []
  | some f, [] => .error ("flag needs an argument: -" ++ f.Name)
  | some f, v :: rest =>
    match setError f v with
    | some e => .error e
    | none => flagParseFrom flags none rest
  | none, tok :: rest =>
    match tok.data with
    | ['-', '-'] => .ok rest
    | '-' :: c :: cs =>
      match (if c = '-' then cs else c :: cs) with
      | [] => .error ("bad flag syntax: " ++ tok)
      | n :: ns =>
        if n = '-' ∨ n = '=' then .error ("bad flag syntax: " ++ tok)
        else
          match flags.find? (fun f => f.Name == String.mk (n :: (splitAtEq ns).1)) with
          | none =>
            if String.mk (n :: (splitAtEq ns).1) = "help" ∨ String.mk (n :: (splitAtEq ns).1) = "h"
            then .error "flag: help requested"
            else .error ("flag provided but not defined: -" ++ String.mk (n :: (splitAtEq ns).1))
          | some f =>
            match (splitAtEq ns).2 with
            | some v =>
              match setError f (String.mk v) with
              | some e => .error e
              | none => flagParseFrom flags none rest
            | none =>
              if f.Kind = .bool then flagParseFrom flags none rest
              else flagParseFrom flags (some f) rest
    | _ => .ok (tok :: rest)

/-- The reference parser. -/
def flagParse : Parser := fun flags args => flagParseFrom flags none args

/-- Substring containment: `s` occurs in `t`. -/
def Contains (t s : String) : Prop := ∃ x y : String, t = x ++ s ++ y

/-! ## Sample descriptors, for evaluating the dispatcher -/

/-- A handler that writes one line and succeeds. -/
def okHandler (line : String) : List String → HandlerResult :=
  fun _ => ⟨[.stdout line], none⟩

/-- A handler that fails with the given error. -/
def failingHandler (err : String) : List String → HandlerResult :=
  fun _ => ⟨[], some err⟩

/-- A command named "sync" whose handler succeeds. -/
def syncCommand : Command := ⟨"sync", "synchronise", okHandler "synced"⟩

/-- A command named "apply" whose handler fails. -/
def applyCommand : Command := ⟨"apply", "apply the configuration", failingHandler "apply failed"⟩

/-- A descriptor content with two flags and three commands, registered out of order. -/
def sampleInfo : AppInfo :=
  { Name := "nidi"
    Usage := "A CLI to config your laptop as code"
    Flags := [BoolFlag "verbose" "more output", BoolFlag "debug" "enable debug"]
    Commands := [syncCommand, applyCommand, ⟨"plan", "show the plan", okHandler "planned"⟩] }

/-- The sample content with the default action of `New`. -/
def sampleApp : App := { toAppInfo := sampleInfo, Action := defaultAction }

/-- A descriptor with a numeric flag. -/
def countApp : App :=
  { Name := "nidi"
    Usage := "A CLI to config your laptop as code"
    Flags := [⟨.numeric, "count", "how many"⟩]
    Commands := []
    Action := defaultAction }

/-! ## The order of strings -/

theorem charsLess_iff : ∀ (s t : List Char), charsLess s t = true ↔ s < t
  | [], [] => by
    simp only [charsLess]
    constructor
    · intro h; cases h
    · intro h; cases h
  | _ :: _, [] => by
    simp only [charsLess]
    constructor
    · intro h; cases h
    · intro h; cases h
  | [], b :: bs => by
    simp only [charsLess, true_iff]
    exact List.Lex.nil
  | a :: as, b :: bs => by
    have ih := charsLess_iff as bs
    unfold charsLess
    split_ifs with h1 h2
    · simp only [true_iff]
      exact List.Lex.rel h1
    · constructor
      · intro h; cases h
      · intro h
        cases h with
        | cons _ => exact absurd h2 (lt_irrefl _)
        | rel h => exact absurd h h1
    · have hab : a = b := le_antisymm (not_lt.mp h2) (not_lt.mp h1)
      subst hab
      rw [ih]
      constructor
      · intro h; exact List.Lex.cons h
      · intro h
        cases h with
        | cons h => exact h
        | rel h => exact absurd h h1

/-- The comparison `stringLess` is the strict lexicographic order of strings. -/
theorem stringLess_iff (s t : String) : stringLess s t = true ↔ s < t := by
  rw [String.lt_iff_toList_lt]
  exact charsLess_iff s.data t.data

theorem FlagsByName_iff (a b : Flag) : FlagsByName a b = true ↔ a.Name < b.Name :=
  stringLess_iff _ _

theorem CommandsByName_iff (a b : Command) : CommandsByName a b = true ↔ a.Name < b.Name :=
  stringLess_iff _ _

/-! ## Sorting by a string key -/

section Sorting
variable {α : Type} (less : α → α → Bool) (key : α → String)

theorem sortSort_perm (l : List α) : (sortSort less l).Perm l :=
  List.perm_insertionSort _ l

theorem sortSort_sorted_le (h : ∀ a b, less a b = true ↔ key a < key b) (l : List α) :
    (sortSort less l).Sorted (fun a b => key a ≤ key b) := by
  have hr : ∀ a b, less b a = false ↔ key a ≤ key b := by
    intro a b
    rw [← not_lt, ← h b a]
    simp
  haveI : IsTotal α (fun a b => less b a = false) :=
    ⟨fun a b => by rw [hr, hr]; exact le_total _ _⟩
  haveI : IsTrans α (fun a b => less b a = false) :=
    ⟨fun a b c => by rw [hr, hr, hr]; exact le_trans⟩
  exact (List.sorted_insertionSort (fun a b => less b a = false) l).imp (fun {a b} => (hr a b).mp)

theorem sortSort_sorted_lt (h : ∀ a b, less a b = true ↔ key a < key b) (l : List α)
    (hn : (l.map key).Nodup) :
    (sortSort less l).Sorted (fun a b => key a < key b) := by
  have h1 := sortSort_sorted_le less key h l
  have h2 : ((sortSort less l).map key).Nodup :=
    ((sortSort_perm less l).map key).nodup_iff.mpr hn
  have h3 : (sortSort less l).Pairwise (fun a b => key a ≠ key b) :=
    List.pairwise_map.mp h2
  exact (List.Pairwise.and h1 h3).imp (fun {a b} hab => lt_of_le_of_ne hab.1 hab.2)

theorem sortSort_idem (h : ∀ a b, less a b = true ↔ key a < key b) (l : List α) :
    sortSort less (sortSort less l) = sortSort less l := by
  have hr : ∀ a b, less b a = false ↔ key a ≤ key b := by
    intro a b
    rw [← not_lt, ← h b a]
    simp
  haveI : IsTotal α (fun a b => less b a = false) :=
    ⟨fun a b => by rw [hr, hr]; exact le_total _ _⟩
  haveI : IsTrans α (fun a b => less b a = false) :=
    ⟨fun a b c => by rw [hr, hr, hr]; exact le_trans⟩
  exact (List.sorted_insertionSort (fun a b => less b a = false) l).insertionSort_eq

theorem sortSort_eq_of_perm (h : ∀ a b, less a b = true ↔ key a < key b) {l l' : List α}
    (hp : l'.Perm l) (hn : (l.map key).Nodup) : sortSort less l' = sortSort less l := by
  haveI : IsAntisymm α (fun a b => key a < key b) :=
    ⟨fun a b h1 h2 => absurd h2 (lt_asymm h1)⟩
  have hn' : (l'.map key).Nodup := (hp.map key).nodup_iff.mpr hn
  exact List.eq_of_perm_of_sorted
    (((sortSort_perm less l').trans hp).trans (sortSort_perm less l).symm)
    (sortSort_sorted_lt less key h l' hn') (sortSort_sorted_lt less key h l hn)

theorem sorted_lt_index_iff {l : List α} (hs : l.Sorted (fun a b => key a < key b))
    (i j : Fin l.length) : i < j ↔ key (l.get i) < key (l.get j) := by
  constructor
  · exact fun h => hs.rel_get_of_lt h
  · intro h
    by_contra hij
    rcases lt_or_eq_of_le (not_lt.mp hij) with h' | h'
    · exact lt_asymm h (hs.rel_get_of_lt h')
    · rw [h'] at h
      exact lt_irrefl _ h

end Sorting

/-! ## The run inside `New` -/

/-- `New` hands back its descriptor only when the run returned without an error. -/
theorem runOrFatal_returned (parse : Parser) (app : App) (osArgs : List String) (a : App)
    (h : (runOrFatal parse app osArgs).status = .returned a) :
    a = app ∧ (app.Run parse osArgs).status = .returned none := by
  unfold runOrFatal at h
  generalize app.Run parse osArgs = r at h ⊢
  obtain ⟨calls, out, st⟩ := r
  cases st with
  | exited code => simp at h
  | returned e =>
    cases e with
    | none =>
      simp only [Status.returned.injEq] at h
      exact ⟨h.symm, rfl⟩
    | some err => simp [logFatal] at h

/-- A parse error is the error of the run, and `log.Fatal` ends the process. -/
theorem runOrFatal_parse_error (parse : Parser) (app : App) (osArgs : List String) (e : String)
    (h : parse app.Flags (osArgs.drop 1) = .error e) :
    runOrFatal parse app osArgs = ⟨[], [.stderr e], .exited 1⟩ := by
  simp only [runOrFatal, App.Run, h, logFatal, List.nil_append]

/-- Without a matching command the default action of `New` prints the help and exits
with status 0. -/
theorem runOrFatal_default (parse : Parser) (app : App) (osArgs args : List String)
    (hA : app.Action = defaultAction)
    (h : parse app.Flags (osArgs.drop 1) = .ok args)
    (hno : ∀ name rest, args = name :: rest → app.Command name = none) :
    runOrFatal parse app osArgs
      = ⟨[.defaultAction], [.stdout (helpText app.toAppInfo)], .exited 0⟩ := by
  cases args with
  | nil =>
    simp only [runOrFatal, App.Run, h, App.runDefault, hA, defaultAction, ShowAppHelpAndExit,
      Effect.andThen]
  | cons name rest =>
    simp only [runOrFatal, App.Run, h, hno name rest rfl, App.runDefault, hA, defaultAction,
      ShowAppHelpAndExit, Effect.andThen]

/-- A matched handler that fails makes `log.Fatal` end the process. -/
theorem runOrFatal_handler_error (parse : Parser) (app : App) (osArgs : List String)
    (name : String) (rest : List String) (c : Command) (e : String)
    (h : parse app.Flags (osArgs.drop 1) = .ok (name :: rest))
    (hc : app.Command name = some c) (he : (c.Action rest).err = some e) :
    runOrFatal parse app osArgs
      = ⟨[.handler c.Name rest], (c.Action rest).out ++ [.stderr e], .exited 1⟩ := by
  simp only [runOrFatal, App.Run, h, hc, he, logFatal]

/-- A matched handler that succeeds lets `New` return the descriptor. -/
theorem runOrFatal_handler_ok (parse : Parser) (app : App) (osArgs : List String)
    (name : String) (rest : List String) (c : Command)
    (h : parse app.Flags (osArgs.drop 1) = .ok (name :: rest))
    (hc : app.Command name = some c) (he : (c.Action rest).err = none) :
    runOrFatal parse app osArgs
      = ⟨[.handler c.Name rest], (c.Action rest).out, .returned app⟩ := by
  simp only [runOrFatal, App.Run, h, hc, he]

/-- With unique names, looking up the name of a registered command finds that command. -/
theorem find_of_mem_nodup : ∀ (cs : List Command) (c : Command),
    (cs.map Command.Name).Nodup → c ∈ cs → cs.find? (fun x => x.Name == c.Name) = some c
  | [], _, _, h => by cases h
  | x :: xs, c, hn, h => by
    rw [List.map_cons, List.nodup_cons] at hn
    rcases List.mem_cons.mp h with rfl | hm
    · simp [List.find?]
    · have hne : x.Name ≠ c.Name := by
        intro heq
        exact hn.1 (heq ▸ List.mem_map_of_mem Command.Name hm)
      have hb : (x.Name == c.Name) = false := by simpa using hne
      rw [List.find?, hb]
      exact find_of_mem_nodup xs c hn.2 hm

/-- A token that is no command's name finds no command. -/
theorem find_none_of_no_name (cs : List Command) (tok : String)
    (h : ∀ c ∈ cs, c.Name ≠ tok) : cs.find? (fun x => x.Name == tok) = none := by
  rw [List.find?_eq_none]
  intro c hc
  simpa using h c hc

/-- The descriptor of `New` has no command to match. -/
theorem descriptor_Command (name : String) : descriptor.Command name = none := rfl

/-- Whenever the arguments parse, `New` prints the help and exits with status 0. -/
theorem New_of_parse_ok (parse : Parser) (osArgs args : List String)
    (h : parse descriptor.Flags (osArgs.drop 1) = .ok args) :
    New parse osArgs
      = ⟨[.defaultAction], [.stdout (helpText descriptor.toAppInfo)], .exited 0⟩ :=
  runOrFatal_default parse descriptor osArgs args rfl h (fun name _ _ => descriptor_Command name)

/-! ## The descriptor of `New` -/

/-- C5: the descriptor constructed by `New` has name "nidi", usage summary
"A CLI to config your laptop as code", exactly one global flag, which is boolean, named
"debug" with usage "enable debug", and a command list equal to the result of `getCommands`,
which is the empty sequence; this holds both as assembled and after the two sorts. -/
theorem New_descriptor_fields :
    (build.Name = "nidi" ∧ build.Usage = "A CLI to config your laptop as code"
      ∧ build.Flags = [BoolFlag "debug" "enable debug"]
      ∧ build.Commands = getCommands)
    ∧ (descriptor.Name = "nidi" ∧ descriptor.Usage = "A CLI to config your laptop as code"
      ∧ descriptor.Flags = [⟨.bool, "debug", "enable debug"⟩]
      ∧ descriptor.Flags.length = 1
      ∧ (∀ f ∈ descriptor.Flags, f.Kind = .bool ∧ f.Name = "debug" ∧ f.Usage = "enable debug")
      ∧ descriptor.Commands = getCommands)
    ∧ getCommands = []
    ∧ ∀ (parse : Parser) (osArgs : List String) (a : App),
        (New parse osArgs).status = .returned a → a = descriptor := by
  refine ⟨⟨rfl, rfl, rfl, rfl⟩, ⟨rfl, rfl, rfl, rfl, ?_, rfl⟩, rfl, ?_⟩
  · intro f hf
    have hf' : f ∈ [BoolFlag "debug" "enable debug"] := hf
    rw [List.mem_singleton] at hf'
    subst hf'
    exact ⟨rfl, rfl, rfl⟩
  · intro parse osArgs a h
    exact (runOrFatal_returned parse descriptor osArgs a h).1

/-! ## Normalization -/

/-- C6: for every sequence of flags and every sequence of commands with pairwise distinct
names, the normalized sequence is a rearrangement of the given one in which an entry
precedes another if and only if its name is smaller in the lexicographic order of strings;
it is sorted ascending by name, and it is the same for every insertion order. -/
theorem normalize_orders_by_name (d : AppInfo)
    (hf : (d.Flags.map Flag.Name).Nodup) (hc : (d.Commands.map Command.Name).Nodup) :
    ((normalize d).Flags.Perm d.Flags
      ∧ (∀ i j : Fin (normalize d).Flags.length,
          i < j ↔ ((normalize d).Flags.get i).Name < ((normalize d).Flags.get j).Name)
      ∧ (normalize d).Flags.Sorted (fun a b => a.Name < b.Name))
    ∧ ((normalize d).Commands.Perm d.Commands
      ∧ (∀ i j : Fin (normalize d).Commands.length,
          i < j ↔ ((normalize d).Commands.get i).Name < ((normalize d).Commands.get j).Name)
      ∧ (normalize d).Commands.Sorted (fun a b => a.Name < b.Name))
    ∧ (∀ d' : AppInfo, d'.Flags.Perm d.Flags → d'.Commands.Perm d.Commands →
        (normalize d').Flags = (normalize d).Flags
        ∧ (normalize d').Commands = (normalize d).Commands) := by
  have sf := sortSort_sorted_lt FlagsByName Flag.Name FlagsByName_iff d.Flags hf
  have sc := sortSort_sorted_lt CommandsByName Command.Name CommandsByName_iff d.Commands hc
  refine ⟨⟨sortSort_perm _ _, ?_, sf⟩, ⟨sortSort_perm _ _, ?_, sc⟩, ?_⟩
  · exact fun i j => sorted_lt_index_iff Flag.Name sf i j
  · exact fun i j => sorted_lt_index_iff Command.Name sc i j
  · intro d' pf pc
    exact ⟨sortSort_eq_of_perm FlagsByName Flag.Name FlagsByName_iff pf hf,
      sortSort_eq_of_perm CommandsByName Command.Name CommandsByName_iff pc hc⟩

theorem normalize_orders_by_name_witness :
    (sampleInfo.Flags.map Flag.Name).Nodup ∧ (sampleInfo.Commands.map Command.Name).Nodup
    ∧ (normalize sampleInfo).Flags.map Flag.Name = ["debug", "verbose"]
    ∧ (normalize sampleInfo).Commands.map Command.Name = ["apply", "plan", "sync"]
    ∧ (normalize sampleInfo).Flags.Sorted (fun a b => a.Name < b.Name)
    ∧ (normalize sampleInfo).Commands.Sorted (fun a b => a.Name < b.Name) :=
  ⟨by decide, by decide, by decide, by decide,
    (normalize_orders_by_name sampleInfo (by decide) (by decide)).1.2.2,
    (normalize_orders_by_name sampleInfo (by decide) (by decide)).2.1.2.2⟩

/-- C7: normalization is idempotent: normalizing a normalized descriptor leaves the order
of its flags and the order of its commands, and with them the whole descriptor,
unchanged. -/
theorem normalize_idempotent (d : AppInfo) :
    (normalize (normalize d)).Flags = (normalize d).Flags
    ∧ (normalize (normalize d)).Commands = (normalize d).Commands
    ∧ normalize (normalize d) = normalize d := by
  have hF := sortSort_idem FlagsByName Flag.Name FlagsByName_iff d.Flags
  have hC := sortSort_idem CommandsByName Command.Name CommandsByName_iff d.Commands
  refine ⟨hF, hC, ?_⟩
  show ({ Name := d.Name, Usage := d.Usage,
          Flags := sortSort FlagsByName (sortSort FlagsByName d.Flags),
          Commands := sortSort CommandsByName (sortSort CommandsByName d.Commands) } : AppInfo)
      = { Name := d.Name, Usage := d.Usage, Flags := sortSort FlagsByName d.Flags,
          Commands := sortSort CommandsByName d.Commands }
  rw [hF, hC]

/-- The reference parser passes on a token that does not start with `-`, and everything
after it, as positional arguments. -/
theorem flagParse_positional (flags : List Flag) (t : String) (rest : List String)
    (ht : t.data.head? ≠ some '-') : flagParse flags (t :: rest) = .ok (t :: rest) := by
  unfold flagParse flagParseFrom
  split
  · rename_i h
    rw [h] at ht
    exact absurd rfl ht
  · rename_i c cs _ h
    rw [h] at ht
    exact absurd rfl ht
  · rfl

/-! ## Dispatch -/

/-- C1: for the descriptor built by `New`, every invocation whose argv carries no argument
after the program name dispatches to the default action, which shows the application help,
and the process terminates with exit code 0. -/
theorem New_no_arguments (parse : Parser) (prog : String)
    (h : parse descriptor.Flags [] = .ok []) :
    New parse [prog]
      = ⟨[.defaultAction], [.stdout (helpText descriptor.toAppInfo)], .exited 0⟩
    ∧ (New parse [prog]).calls = [.defaultAction]
    ∧ (New parse [prog]).status = .exited 0
    ∧ (New parse [prog]).exitCode = 0 := by
  have e := New_of_parse_ok parse [prog] [] h
  rw [e]
  exact ⟨rfl, rfl, rfl, rfl⟩

theorem New_no_arguments_witness :
    New flagParse ["nidi"]
      = ⟨[.defaultAction],
         [.stdout ("NAME:\n   nidi - A CLI to config your laptop as code\n\nCOMMANDS:\n"
            ++ "\nGLOBAL OPTIONS:\n   --debug  enable debug\n")],
         .exited 0⟩
    ∧ (New flagParse ["nidi"]).exitCode = 0 :=
  ⟨(New_no_arguments flagParse "nidi" rfl).1, (New_no_arguments flagParse "nidi" rfl).2.2.2⟩

/-- C2, as the claim states it, fails: the token `--bogus` is not the name of a registered
command, yet `New` does not behave as without arguments. The parser rejects the undefined
flag, neither a handler nor the default action is invoked, the error is written to the
diagnostic stream and the process exits with status 1. -/
theorem New_undefined_flag_is_fatal :
    (∀ c ∈ descriptor.Commands, c.Name ≠ "--bogus")
    ∧ New flagParse ["nidi", "--bogus"]
        = ⟨[], [.stderr "flag provided but not defined: -bogus"], .exited 1⟩
    ∧ (New flagParse ["nidi", "--bogus"]).exitCode = 1
    ∧ (New flagParse ["nidi"]).exitCode = 0
    ∧ New flagParse ["nidi", "--bogus"] ≠ New flagParse ["nidi"] := by
  refine ⟨?_, rfl, rfl, rfl, ?_⟩
  · intro c hc
    cases hc
  · intro h
    have hcalls := congrArg Proc.calls h
    cases hcalls

/-- C2, amended: for every descriptor with the default action of `New` in which no command
bears the token as its name, `New`'s own with its empty command table included: when the
argument parser passes the token on as the positional argument, the run is the run without
arguments, the default help action is invoked, nothing is written to the diagnostic stream
and the exit code is 0; when the parser rejects the token, nothing is invoked, the error is
written to the diagnostic stream and the exit code is 1. The reference parser passes on
every token that does not start with `-`. -/
theorem unknown_command_shows_help (parse : Parser) (app : App) (prog tok : String)
    (hA : app.Action = defaultAction)
    (hno : ∀ c ∈ app.Commands, c.Name ≠ tok)
    (h0 : parse app.Flags [] = .ok []) :
    (parse app.Flags [tok] = .ok [tok] →
      runOrFatal parse app [prog, tok] = runOrFatal parse app [prog]
      ∧ runOrFatal parse app [prog, tok]
          = ⟨[.defaultAction], [.stdout (helpText app.toAppInfo)], .exited 0⟩
      ∧ (runOrFatal parse app [prog, tok]).exitCode = 0)
    ∧ (∀ e, parse app.Flags [tok] = .error e →
      runOrFatal parse app [prog, tok] = ⟨[], [.stderr e], .exited 1⟩
      ∧ (runOrFatal parse app [prog, tok]).exitCode = 1
      ∧ runOrFatal parse app [prog, tok] ≠ runOrFatal parse app [prog])
    ∧ (∀ (flags : List Flag) (t : String) (rest : List String),
      t.data.head? ≠ some '-' → flagParse flags (t :: rest) = .ok (t :: rest)) := by
  have e0 : runOrFatal parse app [prog]
      = ⟨[.defaultAction], [.stdout (helpText app.toAppInfo)], .exited 0⟩ := by
    refine runOrFatal_default parse app [prog] [] hA h0 ?_
    intro name rest hnr
    cases hnr
  refine ⟨?_, ?_, fun flags t rest ht => flagParse_positional flags t rest ht⟩
  · intro h1
    have e1 : runOrFatal parse app [prog, tok]
        = ⟨[.defaultAction], [.stdout (helpText app.toAppInfo)], .exited 0⟩ := by
      refine runOrFatal_default parse app [prog, tok] [tok] hA h1 ?_
      intro name rest hnr
      cases hnr
      exact find_none_of_no_name app.Commands tok hno
    rw [e1, e0]
    exact ⟨rfl, rfl, rfl⟩
  · intro e he
    have e1 : runOrFatal parse app [prog, tok] = ⟨[], [.stderr e], .exited 1⟩ :=
      runOrFatal_parse_error parse app [prog, tok] e he
    rw [e1, e0]
    refine ⟨rfl, rfl, ?_⟩
    intro h
    have hcalls := congrArg Proc.calls h
    cases hcalls

theorem unknown_command_shows_help_witness :
    New flagParse ["nidi", "bogus-command"] = New flagParse ["nidi"]
    ∧ New flagParse ["nidi", "bogus-command"]
        = ⟨[.defaultAction], [.stdout (helpText descriptor.toAppInfo)], .exited 0⟩
    ∧ (New flagParse ["nidi", "bogus-command"]).exitCode = 0 :=
  (unknown_command_shows_help flagParse descriptor "nidi" "bogus-command" rfl
    (fun _ hc => by cases hc) rfl).1 rfl

/-- C3: for every command table with unique names that contains a command `c`, running the
dispatcher on the name of `c` followed by further arguments invokes the handler of `c`
exactly once, on those remaining arguments, propagates its result, and does not invoke the
default action. -/
theorem Run_invokes_matched_handler (parse : Parser) (a : App) (c : Command)
    (prog : String) (rest : List String)
    (hn : (a.Commands.map Command.Name).Nodup) (hc : c ∈ a.Commands)
    (hp : parse a.Flags (c.Name :: rest) = .ok (c.Name :: rest)) :
    a.Run parse (prog :: c.Name :: rest)
      = ⟨[.handler c.Name rest], (c.Action rest).out, .returned (c.Action rest).err⟩
    ∧ (a.Run parse (prog :: c.Name :: rest)).calls.count (.handler c.Name rest) = 1
    ∧ (a.Run parse (prog :: c.Name :: rest)).calls.length = 1
    ∧ Call.defaultAction ∉ (a.Run parse (prog :: c.Name :: rest)).calls := by
  have hf : a.Command c.Name = some c := find_of_mem_nodup a.Commands c hn hc
  have e : a.Run parse (prog :: c.Name :: rest)
      = ⟨[.handler c.Name rest], (c.Action rest).out, .returned (c.Action rest).err⟩ := by
    simp only [App.Run, List.drop, hp, hf]
  rw [e]
  refine ⟨rfl, ?_, rfl, ?_⟩
  · simp
  · simp

theorem Run_invokes_matched_handler_witness :
    sampleApp.Run flagParse ["nidi", "sync"]
      = ⟨[.handler "sync" []], [.stdout "synced"], .returned none⟩
    ∧ Call.defaultAction ∉ (sampleApp.Run flagParse ["nidi", "sync"]).calls :=
  ⟨(Run_invokes_matched_handler flagParse sampleApp syncCommand "nidi" [] (by decide)
      (List.mem_cons_self _ _) rfl).1,
   (Run_invokes_matched_handler flagParse sampleApp syncCommand "nidi" [] (by decide)
      (List.mem_cons_self _ _) rfl).2.2.2⟩

/-! ## Errors -/

/-- C4: for every descriptor with the default action of `New`: when argument parsing or
the handler of the matched command yields an error, the error is written to the diagnostic
stream and the process exits with status 1 at once, after at most the one handler
invocation, and `New` does not return the descriptor; the exit code is non-zero if and
only if parsing or the matched handler returned an error. -/
theorem error_is_fatal (parse : Parser) (app : App) (osArgs : List String)
    (hA : app.Action = defaultAction) :
    (∀ e, parse app.Flags (osArgs.drop 1) = .error e →
        runOrFatal parse app osArgs = ⟨[], [.stderr e], .exited 1⟩)
    ∧ (∀ name rest c e, parse app.Flags (osArgs.drop 1) = .ok (name :: rest) →
        app.Command name = some c → (c.Action rest).err = some e →
        runOrFatal parse app osArgs
          = ⟨[.handler c.Name rest], (c.Action rest).out ++ [.stderr e], .exited 1⟩)
    ∧ ((runOrFatal parse app osArgs).exitCode ≠ 0 ↔
        ((∃ e, parse app.Flags (osArgs.drop 1) = .error e)
         ∨ (∃ name rest c e, parse app.Flags (osArgs.drop 1) = .ok (name :: rest)
              ∧ app.Command name = some c ∧ (c.Action rest).err = some e)))
    ∧ ((runOrFatal parse app osArgs).exitCode ≠ 0 →
        (runOrFatal parse app osArgs).status = .exited 1
        ∧ (runOrFatal parse app osArgs).calls.length ≤ 1
        ∧ ∀ a, (runOrFatal parse app osArgs).status ≠ .returned a) := by
  refine ⟨fun e h => runOrFatal_parse_error parse app osArgs e h,
    fun name rest c e h hc he => runOrFatal_handler_error parse app osArgs name rest c e h hc he,
    ?_⟩
  rcases hp : parse app.Flags (osArgs.drop 1) with e | args
  · -- the parser failed
    rw [runOrFatal_parse_error parse app osArgs e hp]
    refine ⟨⟨fun _ => Or.inl ⟨e, rfl⟩, fun _ => Nat.succ_ne_zero 0⟩,
      fun _ => ⟨rfl, Nat.zero_le 1, ?_⟩⟩
    intro a h
    cases h
  · -- the parser succeeded
    have hdefault : (∀ name rest, args = name :: rest → app.Command name = none) →
        runOrFatal parse app osArgs
          = ⟨[.defaultAction], [.stdout (helpText app.toAppInfo)], .exited 0⟩ :=
      fun hno => runOrFatal_default parse app osArgs args hA hp hno
    cases args with
    | nil =>
      rw [hdefault (fun _ _ h => by cases h)]
      refine ⟨⟨fun h => absurd rfl h, ?_⟩, fun h => absurd rfl h⟩
      rintro (⟨e, he⟩ | ⟨name, rest, c, e, he, _⟩) <;> cases he
    | cons name rest =>
      rcases hc : app.Command name with _ | c
      · rw [hdefault (fun n r h => by cases h; exact hc)]
        refine ⟨⟨fun h => absurd rfl h, ?_⟩, fun h => absurd rfl h⟩
        rintro (⟨e, he⟩ | ⟨n, r, c, e, he, hc', _⟩)
        · cases he
        · cases he
          rw [hc] at hc'
          cases hc'
      · rcases herr : (c.Action rest).err with _ | e
        · rw [runOrFatal_handler_ok parse app osArgs name rest c hp hc herr]
          refine ⟨⟨fun h => absurd rfl h, ?_⟩, fun h => absurd rfl h⟩
          rintro (⟨e, he⟩ | ⟨n, r, c', e, he, hc', herr'⟩)
          · cases he
          · cases he
            rw [hc] at hc'
            cases hc'
            rw [herr] at herr'
            cases herr'
        · rw [runOrFatal_handler_error parse app osArgs name rest c e hp hc herr]
          refine ⟨⟨fun _ => Or.inr ⟨name, rest, c, e, rfl, hc, herr⟩,
            fun _ => Nat.succ_ne_zero 0⟩, fun _ => ⟨rfl, Nat.le_refl 1, ?_⟩⟩
          intro a h
          cases h

theorem error_is_fatal_witness :
    runOrFatal flagParse sampleApp ["nidi", "apply"]
      = ⟨[.handler "apply" []], [.stderr "apply failed"], .exited 1⟩
    ∧ runOrFatal flagParse sampleApp ["nidi", "--bogus"]
      = ⟨[], [.stderr "flag provided but not defined: -bogus"], .exited 1⟩ :=
  ⟨(error_is_fatal flagParse sampleApp ["nidi", "apply"] rfl).2.1
      "apply" [] applyCommand "apply failed" rfl rfl rfl,
   (error_is_fatal flagParse sampleApp ["nidi", "--bogus"] rfl).1
      "flag provided but not defined: -bogus" rfl⟩

/-! ## What `New` does beyond assembling the descriptor -/

/-- C9, as the claim states it, fails: on the arguments `["nidi"]` the function `New`
prints the help and terminates the process with status 0; for no argument parser does it
return the descriptor. -/
theorem New_terminates_the_process :
    New flagParse ["nidi"]
      = ⟨[.defaultAction], [.stdout (helpText descriptor.toAppInfo)], .exited 0⟩
    ∧ (New flagParse ["nidi"]).out ≠ []
    ∧ ¬ ∃ (parse : Parser) (a : App), (New parse ["nidi"]).status = .returned a := by
  refine ⟨rfl, by decide, ?_⟩
  rintro ⟨parse, a, h⟩
  rcases hp : parse descriptor.Flags [] with e | args
  · rw [New, runOrFatal_parse_error parse descriptor ["nidi"] e hp] at h
    cases h
  · rw [New_of_parse_ok parse ["nidi"] args hp] at h
    cases h

/-- C9, amended: the descriptor is assembled by pure, total steps that do not depend on the
arguments, but `New` also runs it on the process arguments. When the arguments parse, the
default action prints the help and terminates the process with status 0; when the run
returns an error, `New` writes it to the diagnostic stream and terminates the process with
status 1; `New` returns, and then returns the assembled descriptor, only if the run returns
without an error. -/
theorem New_runs_the_application (parse : Parser) (osArgs : List String) :
    descriptor.toAppInfo = normalize build
    ∧ (∀ args, parse descriptor.Flags (osArgs.drop 1) = .ok args →
        New parse osArgs
          = ⟨[.defaultAction], [.stdout (helpText descriptor.toAppInfo)], .exited 0⟩)
    ∧ (∀ e, (descriptor.Run parse osArgs).status = .returned (some e) →
        (New parse osArgs).status = .exited 1
        ∧ (New parse osArgs).out = (descriptor.Run parse osArgs).out ++ [.stderr e])
    ∧ (∀ a, (New parse osArgs).status = .returned a →
        a = descriptor ∧ (descriptor.Run parse osArgs).status = .returned none) := by
  refine ⟨rfl, fun args h => New_of_parse_ok parse osArgs args h, ?_,
    fun a h => runOrFatal_returned parse descriptor osArgs a h⟩
  intro e h
  unfold New runOrFatal
  generalize descriptor.Run parse osArgs = r at h ⊢
  obtain ⟨calls, out, st⟩ := r
  cases h
  exact ⟨rfl, rfl⟩

/-! ## One invocation per run -/

/-- C10, as the claim states it, fails: for a descriptor with a numeric flag, the
arguments `--count many` do not parse, the run ends with the parse error, and neither a
handler nor the default action is invoked. -/
theorem Run_parse_error_invokes_nothing :
    (countApp.Run flagParse ["nidi", "--count", "many"]).calls = []
    ∧ (countApp.Run flagParse ["nidi", "--count", "many"]).status
        = .returned (some "invalid value \"many\" for flag -count: parse error")
    ∧ runOrFatal flagParse countApp ["nidi", "--count", "many"]
        = ⟨[], [.stderr "invalid value \"many\" for flag -count: parse error"], .exited 1⟩ :=
  ⟨rfl, rfl, rfl⟩

/-- C10, amended: for every descriptor and every argv a run of the dispatcher never
executes both a handler and the default action. When the arguments parse it executes
exactly one of them, the handler of a registered command or the default action; when
parsing fails it executes neither. The invocations are the same by the time the process
has terminated. -/
theorem Run_invokes_at_most_one (parse : Parser) (a : App) (osArgs : List String) :
    (a.Run parse osArgs).calls.length ≤ 1
    ∧ (∀ args, parse a.Flags (osArgs.drop 1) = .ok args →
        (a.Run parse osArgs).calls = [.defaultAction]
        ∨ ∃ c rest, c ∈ a.Commands ∧ (a.Run parse osArgs).calls = [.handler c.Name rest])
    ∧ (∀ e, parse a.Flags (osArgs.drop 1) = .error e → (a.Run parse osArgs).calls = [])
    ∧ (runOrFatal parse a osArgs).calls = (a.Run parse osArgs).calls := by
  have hlast : (runOrFatal parse a osArgs).calls = (a.Run parse osArgs).calls := by
    unfold runOrFatal
    generalize a.Run parse osArgs = r
    obtain ⟨calls, out, st⟩ := r
    cases st with
    | exited code => rfl
    | returned e => cases e <;> rfl
  rcases hp : parse a.Flags (osArgs.drop 1) with e | args
  · have e1 : a.Run parse osArgs = ⟨[], [], .returned (some e)⟩ := by
      simp only [App.Run, hp]
    refine ⟨?_, ?_, ?_, hlast⟩
    · rw [e1]; exact Nat.zero_le 1
    · intro args h; cases h
    · intro _ _; rw [e1]
  · cases args with
    | nil =>
      have e1 : a.Run parse osArgs = a.runDefault [] := by simp only [App.Run, hp]
      refine ⟨?_, ?_, ?_, hlast⟩
      · rw [e1]; exact Nat.le_refl 1
      · intro _ _; left; rw [e1]; rfl
      · intro e h; cases h
    | cons name rest =>
      rcases hc : a.Command name with _ | c
      · have e1 : a.Run parse osArgs = a.runDefault (name :: rest) := by
          simp only [App.Run, hp, hc]
        refine ⟨?_, ?_, ?_, hlast⟩
        · rw [e1]; exact Nat.le_refl 1
        · intro _ _; left; rw [e1]; rfl
        · intro e h; cases h
      · have e1 : a.Run parse osArgs
            = ⟨[.handler c.Name rest], (c.Action rest).out, .returned (c.Action rest).err⟩ := by
          simp only [App.Run, hp, hc]
        refine ⟨?_, ?_, ?_, hlast⟩
        · rw [e1]; exact Nat.le_refl 1
        · intro _ _
          right
          exact ⟨c, rest, List.mem_of_find?_eq_some hc, by rw [e1]⟩
        · intro e h; cases h

/-! ## The help text -/

theorem concat_append (l₁ l₂ : List String) : concat (l₁ ++ l₂) = concat l₁ ++ concat l₂ := by
  induction l₁ with
  | nil => simp [concat]
  | cons x xs ih =>
    have h1 : concat (x :: xs ++ l₂) = x ++ concat (xs ++ l₂) := rfl
    have h2 : concat (x :: xs) = x ++ concat xs := rfl
    rw [h1, h2, ih, String.append_assoc]

/-- The line of an entry of a list stands between the lines of the entries around it. -/
theorem concat_map_split {α : Type} (f : α → String) (l₁ l₂ : List α) (a : α) :
    concat ((l₁ ++ a :: l₂).map f) = concat (l₁.map f) ++ f a ++ concat (l₂.map f) := by
  have h : concat ((a :: l₂).map f) = f a ++ concat (l₂.map f) := rfl
  rw [List.map_append, concat_append, h, String.append_assoc]

theorem Contains.append_right {t s : String} (h : Contains t s) (u : String) :
    Contains (t ++ u) s := by
  obtain ⟨x, y, rfl⟩ := h
  exact ⟨x, y ++ u, by simp only [String.append_assoc]⟩

theorem Contains.append_left {t s : String} (h : Contains t s) (u : String) :
    Contains (u ++ t) s := by
  obtain ⟨x, y, rfl⟩ := h
  exact ⟨u ++ x, y, by simp only [String.append_assoc]⟩

/-- The rendered lines of a list contain what the line of each entry contains. -/
theorem contains_concat_map {α : Type} (f : α → String) (l : List α) (a : α) (s : String)
    (ha : a ∈ l) (hs : Contains (f a) s) : Contains (concat (l.map f)) s := by
  obtain ⟨l₁, l₂, rfl⟩ := List.append_of_mem ha
  rw [concat_map_split]
  exact (hs.append_left _).append_right _

/-- In a list sorted by key, an entry with a smaller key stands before one with a larger
key. -/
theorem sorted_split {α : Type} (key : α → String) {l : List α}
    (hs : l.Sorted (fun a b => key a ≤ key b)) {a b : α} (ha : a ∈ l) (hb : b ∈ l)
    (hab : key a < key b) : ∃ l₁ l₂ l₃, l = l₁ ++ a :: (l₂ ++ b :: l₃) := by
  obtain ⟨p, q, rfl⟩ := List.append_of_mem ha
  have hpw := List.pairwise_append.mp hs
  rcases List.mem_append.mp hb with hbp | hbq
  · exact absurd (hpw.2.2 b hbp a (List.mem_cons_self a q)) (not_le.mpr hab)
  · rcases List.mem_cons.mp hbq with rfl | hbq'
    · exact absurd hab (lt_irrefl _)
    · obtain ⟨q₁, q₂, rfl⟩ := List.append_of_mem hbq'
      exact ⟨p, q₁, q₂, rfl⟩

/-- In the rendered lines of a list sorted by key, the line of an entry with a smaller key
stands before the line of an entry with a larger key. -/
theorem concat_map_ordered {α : Type} (key : α → String) (f : α → String) {l : List α}
    (hs : l.Sorted (fun a b => key a ≤ key b)) {a b : α} (ha : a ∈ l) (hb : b ∈ l)
    (hab : key a < key b) : ∃ x y z, concat (l.map f) = x ++ f a ++ y ++ f b ++ z := by
  obtain ⟨l₁, l₂, l₃, rfl⟩ := sorted_split key hs ha hb hab
  refine ⟨concat (l₁.map f), concat (l₂.map f), concat (l₃.map f), ?_⟩
  rw [concat_map_split, concat_map_split]
  simp only [String.append_assoc]

/-- The help text contains the name, the usage summary, every flag as `--name` and the name
of every command. -/
theorem helpText_contains (a : AppInfo) :
    Contains (helpText a) a.Name ∧ Contains (helpText a) a.Usage
    ∧ (∀ f ∈ a.Flags, Contains (helpText a) ("--" ++ f.Name))
    ∧ (∀ c ∈ a.Commands, Contains (helpText a) c.Name) := by
  refine ⟨?_, ?_, ?_, ?_⟩
  · exact ⟨"NAME:\n   ", " - " ++ a.Usage ++ "\n\nCOMMANDS:\n"
      ++ concat (a.Commands.map commandLine)
      ++ "\nGLOBAL OPTIONS:\n" ++ concat (a.Flags.map flagLine),
      by simp only [helpText, String.append_assoc]⟩
  · exact ⟨"NAME:\n   " ++ a.Name ++ " - ", "\n\nCOMMANDS:\n"
      ++ concat (a.Commands.map commandLine)
      ++ "\nGLOBAL OPTIONS:\n" ++ concat (a.Flags.map flagLine),
      by simp only [helpText, String.append_assoc]⟩
  · intro f hf
    have hline : Contains (flagLine f) ("--" ++ f.Name) :=
      ⟨"   ", "  " ++ f.Usage ++ "\n", by simp only [flagLine, String.append_assoc]⟩
    exact (contains_concat_map flagLine a.Flags f _ hf hline).append_left _
  · intro c hc
    have hline : Contains (commandLine c) c.Name :=
      ⟨"   ", "  " ++ c.Usage ++ "\n", by simp only [commandLine, String.append_assoc]⟩
    have h := contains_concat_map commandLine a.Commands c _ hc hline
    exact ((h.append_left _).append_right _).append_right _

/-- C8: the help text printed by the default action for a normalized descriptor contains
the application name, the usage summary, every global flag as `--name` and the name of
every registered command; the line of a flag (of a command) with a smaller name stands
before the line of one with a larger name, the lists being sorted ascending by name; for
the descriptor of `New` the text contains "A CLI to config your laptop as code" and
"--debug". -/
theorem help_lists_everything_in_order (info : AppInfo) (args : List String) :
    (defaultAction ⟨normalize info, args⟩).out = [.stdout (helpText (normalize info))]
    ∧ Contains (helpText (normalize info)) info.Name
    ∧ Contains (helpText (normalize info)) info.Usage
    ∧ (∀ f ∈ info.Flags, Contains (helpText (normalize info)) ("--" ++ f.Name))
    ∧ (∀ c ∈ info.Commands, Contains (helpText (normalize info)) c.Name)
    ∧ ((normalize info).Flags.Sorted (fun a b => a.Name ≤ b.Name)
        ∧ (normalize info).Commands.Sorted (fun a b => a.Name ≤ b.Name))
    ∧ (∀ f g, f ∈ info.Flags → g ∈ info.Flags → f.Name < g.Name →
        ∃ x y z, helpText (normalize info) = x ++ flagLine f ++ y ++ flagLine g ++ z)
    ∧ (∀ c e, c ∈ info.Commands → e ∈ info.Commands → c.Name < e.Name →
        ∃ x y z, helpText (normalize info) = x ++ commandLine c ++ y ++ commandLine e ++ z)
    ∧ Contains (helpText descriptor.toAppInfo) "A CLI to config your laptop as code"
    ∧ Contains (helpText descriptor.toAppInfo) "--debug" := by
  have hc := helpText_contains (normalize info)
  have pf : (normalize info).Flags.Perm info.Flags := sortSort_perm _ _
  have pc : (normalize info).Commands.Perm info.Commands := sortSort_perm _ _
  have sf : (normalize info).Flags.Sorted (fun a b => a.Name ≤ b.Name) :=
    sortSort_sorted_le FlagsByName Flag.Name FlagsByName_iff info.Flags
  have sc : (normalize info).Commands.Sorted (fun a b => a.Name ≤ b.Name) :=
    sortSort_sorted_le CommandsByName Command.Name CommandsByName_iff info.Commands
  refine ⟨rfl, hc.1, hc.2.1, fun f hf => hc.2.2.1 f (pf.mem_iff.mpr hf),
    fun c h => hc.2.2.2 c (pc.mem_iff.mpr h), ⟨sf, sc⟩, ?_, ?_, ?_, ?_⟩
  · intro f g hf hg hlt
    obtain ⟨x, y, z, h⟩ := concat_map_ordered Flag.Name flagLine sf
      (pf.mem_iff.mpr hf) (pf.mem_iff.mpr hg) hlt
    refine ⟨"NAME:\n   " ++ info.Name ++ " - " ++ info.Usage ++ "\n\nCOMMANDS:\n"
      ++ concat ((normalize info).Commands.map commandLine)
      ++ "\nGLOBAL OPTIONS:\n" ++ x, y, z, ?_⟩
    have e : helpText (normalize info)
        = "NAME:\n   " ++ info.Name ++ " - " ++ info.Usage ++ "\n\nCOMMANDS:\n"
          ++ concat ((normalize info).Commands.map commandLine)
          ++ "\nGLOBAL OPTIONS:\n" ++ concat ((normalize info).Flags.map flagLine) := rfl
    rw [e, h]
    simp only [String.append_assoc]
  · intro c e hc' he hlt
    obtain ⟨x, y, z, h⟩ := concat_map_ordered Command.Name commandLine sc
      (pc.mem_iff.mpr hc') (pc.mem_iff.mpr he) hlt
    refine ⟨"NAME:\n   " ++ info.Name ++ " - " ++ info.Usage ++ "\n\nCOMMANDS:\n" ++ x, y,
      z ++ "\nGLOBAL OPTIONS:\n" ++ concat ((normalize info).Flags.map flagLine), ?_⟩
    have e' : helpText (normalize info)
        = "NAME:\n   " ++ info.Name ++ " - " ++ info.Usage ++ "\n\nCOMMANDS:\n"
          ++ concat ((normalize info).Commands.map commandLine)
          ++ "\nGLOBAL OPTIONS:\n" ++ concat ((normalize info).Flags.map flagLine) := rfl
    rw [e', h]
    simp only [String.append_assoc]
  · exact (helpText_contains descriptor.toAppInfo).2.1
  · exact (helpText_contains descriptor.toAppInfo).2.2.1 (BoolFlag "debug" "enable debug")
      (List.mem_singleton.mpr rfl)

end Usanidi
